import Mathlib

/-!
Verification of the camel untyped lambda-calculus front end.

This file embeds the term model (`src/ast.rs`), the lexer (`src/lexer.rs`),
the recursive-descent parser (`src/parser.rs`) and the evaluator
(`src/eval.rs`) as executable Lean definitions, and proves the testable
properties of the specification against them.

The Rust parser is a set of mutually recursive methods pulling tokens from
the lexer one at a time.  Since the lexer has no dependence on the parser,
pulling tokens lazily is observationally the same as tokenizing the whole
input first and consuming the token list; the embedding therefore parses a
`List Token`, with the Rust `current_token` lookahead being the head of the
list.  The mutually recursive parse functions are written with an explicit
fuel argument (`none` = fuel exhausted); the development proves that fuel
`4 * toks.length + 4` always suffices, so the fueled functions are a faithful
rendering of the Rust recursion, which simply runs to completion.
-/

set_option autoImplicit false

namespace Camel

/-- Nodes in the Abstract Syntax Tree, from `src/ast.rs` (`Node`,
`Abstraction`, `Application`, `Identifier` flattened into one inductive;
the boxed struct fields become constructor arguments). -/
inductive Node where
  | abstraction (param : String) (body : Node)
  | application (lhs : Node) (rhs : Node)
  | identifier (name : String)
  deriving DecidableEq

/-- Canonical textual rendering, from `impl fmt::Display for Node` in
`src/ast.rs`. -/
def render : Node → String
  | .abstraction p b => "(λ" ++ p ++ ". " ++ render b ++ ")"
  | .application l r => render l ++ " " ++ render r
  | .identifier n => n

/-- Discriminator used to state facts about the evaluator's head test. -/
def Node.isAbstraction : Node → Bool
  | .abstraction _ _ => true
  | _ => false

/-- Discriminator for application nodes. -/
def Node.isApplication : Node → Bool
  | .application _ _ => true
  | _ => false

/-- Token kinds, from `src/token.rs` (`TokenKind`). -/
inductive TokenKind where
  | leftParen
  | rightParen
  | lambda
  | dot
  | lowercaseId
  | unknown
  deriving DecidableEq

/-- A token: kind plus the literal text sliced from the input, from
`src/token.rs` (`Token`). -/
structure Token where
  kind : TokenKind
  text : String
  deriving DecidableEq

/-- Unicode White_Space property, the character class used by Rust's
`char::is_whitespace` in `Lexer::skip_whitespace`. -/
def isRustWhitespace (c : Char) : Bool :=
  c.toNat = 0x09 || c.toNat = 0x0A || c.toNat = 0x0B || c.toNat = 0x0C ||
  c.toNat = 0x0D || c.toNat = 0x20 || c.toNat = 0x85 || c.toNat = 0xA0 ||
  c.toNat = 0x1680 || (0x2000 ≤ c.toNat && c.toNat ≤ 0x200A) ||
  c.toNat = 0x2028 || c.toNat = 0x2029 || c.toNat = 0x202F ||
  c.toNat = 0x205F || c.toNat = 0x3000

/-- Whitespace skipping, from `Lexer::skip_whitespace`. -/
def skip_whitespace : List Char → List Char
  | [] => []
  | c :: cs => if isRustWhitespace c then skip_whitespace cs else c :: cs

/-- One step of the lexer, from `Lexer::next_token`: skip whitespace, then
dispatch on the first remaining character.  A lowercase ASCII letter starts a
`LowercaseId` token that greedily consumes ASCII alphanumerics
(`Lexer::read_lcid`); any unrecognized character becomes a single-character
`Unknown` token.  Returns the token and the remaining input, or `none` at end
of input. -/
def next_token (input : List Char) : Option (Token × List Char) :=
  match skip_whitespace input with
  | [] => none
  | c :: cs =>
    if c = '(' then some (⟨.leftParen, String.mk [c]⟩, cs)
    else if c = ')' then some (⟨.rightParen, String.mk [c]⟩, cs)
    else if c = 'λ' then some (⟨.lambda, String.mk [c]⟩, cs)
    else if c = '\\' then some (⟨.lambda, String.mk [c]⟩, cs)
    else if c = '.' then some (⟨.dot, String.mk [c]⟩, cs)
    else if 'a' ≤ c && c ≤ 'z' then
      some (⟨.lowercaseId, String.mk (List.takeWhile Char.isAlphanum (c :: cs))⟩,
            List.dropWhile Char.isAlphanum (c :: cs))
    else some (⟨.unknown, String.mk [c]⟩, cs)

/-- Repeated `next_token` with fuel; each successful step consumes at least
one character, so fuel `input.length + 1` always reaches end of input. -/
def tokenizeF : Nat → List Char → List Token
  | 0, _ => []
  | f + 1, input =>
    match next_token input with
    | none => []
    | some (tk, rest) => tk :: tokenizeF f rest

/-- The full token stream of a character list. -/
def tokenizeList (l : List Char) : List Token :=
  tokenizeF (l.length + 1) l

/-- The full token stream of a source string. -/
def tokenize (s : String) : List Token :=
  tokenizeList s.toList

/-- Structured parse errors, from `ParserError` in `src/parser.rs`:
`UnexpectedToken` carries the offending token's kind and literal text (the
`TokenError` payload), `UnexpectedEndOfInput` carries nothing. -/
inductive ParserError where
  | unexpectedToken (kind : TokenKind) (text : String)
  | unexpectedEndOfInput
  deriving DecidableEq

/-- Result of a parse function: an error, or a node plus remaining tokens. -/
abbrev PResult := Except ParserError (Node × List Token)

/-- The parser's one-token lookahead, from `Parser::current_kind`. -/
def currentKind : List Token → Option TokenKind
  | [] => none
  | t :: _ => some t.kind

/-- Token expectation, from `Parser::expect`: if the current token has the
given kind, consume it, otherwise report it as unexpected (or report end of
input). -/
def expect (kind : TokenKind) (toks : List Token) : Except ParserError (List Token) :=
  match toks with
  | t :: rest => if t.kind = kind then .ok rest else .error (.unexpectedToken t.kind t.text)
  | [] => .error .unexpectedEndOfInput

/-- Identifier parsing, from `Parser::parse_identifier`: take the current
token's text as the name (the caller has already checked the kind). -/
def parse_identifier (toks : List Token) : PResult :=
  match toks with
  | t :: rest => .ok (.identifier t.text, rest)
  | [] => .error .unexpectedEndOfInput

mutual

/-- Fueled `Parser::parse_term`: an abstraction if the lookahead is a lambda,
otherwise an application. -/
def parse_termF : Nat → List Token → Option PResult
  | 0, _ => none
  | f + 1, toks =>
    match currentKind toks with
    | some .lambda => parse_abstractionF f toks
    | _ => parse_applicationF f toks

/-- Fueled `Parser::parse_abstraction`: consume the lambda token, require a
`LowercaseId` parameter, require a dot, then parse the body with
`parse_term`. -/
def parse_abstractionF : Nat → List Token → Option PResult
  | 0, _ => none
  | f + 1, toks =>
    match toks.tail with
    | ⟨.lowercaseId, text⟩ :: rest2 =>
      (match expect .dot rest2 with
       | .error e => some (.error e)
       | .ok rest3 =>
         match parse_termF f rest3 with
         | none => none
         | some (.error e) => some (.error e)
         | some (.ok (body, rest4)) => some (.ok (.abstraction text body, rest4)))
    | t :: _ => some (.error (.unexpectedToken t.kind t.text))
    | [] => some (.error .unexpectedEndOfInput)

/-- Fueled `Parser::parse_application`: parse one atom, then fold further
atoms onto the left-hand side. -/
def parse_applicationF : Nat → List Token → Option PResult
  | 0, _ => none
  | f + 1, toks =>
    match parse_atomF f toks with
    | none => none
    | some (.error e) => some (.error e)
    | some (.ok (lhs, rest)) => parse_app_loopF f lhs rest

/-- The `while` loop of `Parser::parse_application`: as long as the lookahead
is `LowercaseId` or `LeftParen`, parse another atom and fold it onto the
accumulated left-hand side. -/
def parse_app_loopF : Nat → Node → List Token → Option PResult
  | 0, _, _ => none
  | f + 1, lhs, toks =>
    match currentKind toks with
    | some .lowercaseId | some .leftParen =>
      (match parse_atomF f toks with
       | none => none
       | some (.error e) => some (.error e)
       | some (.ok (rhs, rest)) => parse_app_loopF f (.application lhs rhs) rest)
    | _ => some (.ok (lhs, toks))

/-- Fueled `Parser::parse_atom`: a parenthesized term or a lowercase
identifier; any other token (or end of input) is an error. -/
def parse_atomF : Nat → List Token → Option PResult
  | 0, _ => none
  | f + 1, toks =>
    match currentKind toks with
    | some .leftParen => parse_parenthesizedF f toks
    | some .lowercaseId => some (parse_identifier toks)
    | some _ =>
      (match toks with
       | t :: _ => some (.error (.unexpectedToken t.kind t.text))
       | [] => some (.error .unexpectedEndOfInput))
    | none => some (.error .unexpectedEndOfInput)

/-- Fueled `Parser::parse_parenthesized`: consume the left parenthesis, parse
a term, require a right parenthesis. -/
def parse_parenthesizedF : Nat → List Token → Option PResult
  | 0, _ => none
  | f + 1, toks =>
    match parse_termF f toks.tail with
    | none => none
    | some (.error e) => some (.error e)
    | some (.ok (term, rest2)) =>
      match expect .rightParen rest2 with
      | .error e => some (.error e)
      | .ok rest3 => some (.ok (term, rest3))

end

/-- Top-level parse of a source string, `Parser::new` + `Parser::parse_term`:
tokenize, then parse one term, returning its node.  Fuel
`4 * toks.length + 4` is proven sufficient below (`parse_termF_fuel`), so the
`getD` default is never taken. -/
def parse_term (input : String) : Except ParserError Node :=
  let toks := tokenize input
  ((parse_termF (4 * toks.length + 4) toks).getD (.error .unexpectedEndOfInput)).map Prod.fst

/-- Substitution, from `substitute` in `src/eval.rs`: replaces every
`Identifier` literally named `"x"` by `value`, rebuilding applications and
abstractions (whose `param` is copied unchanged) along the way. -/
def substitute (value : Node) : Node → Node
  | .identifier name => if name = "x" then value else .identifier name
  | .application l r => .application (substitute value l) (substitute value r)
  | .abstraction p b => .abstraction p (substitute value b)

/-- The evaluator, from `eval` in `src/eval.rs`: for an application, evaluate
both sides; if the evaluated left side is an abstraction, substitute into its
body (ignoring its parameter name), otherwise rebuild the application from
the evaluated sides.  Every other node is returned unchanged. -/
def eval : Node → Node
  | .application l r =>
    let l' := eval l
    let r' := eval r
    match l' with
    | .abstraction _ b => substitute r' b
    | _ => .application l' r'
  | n => n

/-- A string is a syntactically valid lowercase identifier: non-empty, first
character a lowercase ASCII letter, remaining characters ASCII
alphanumeric.  This is exactly what `Lexer::read_lcid` produces. -/
def validLcidString (s : String) : Bool :=
  match s.toList with
  | [] => false
  | c :: cs => ('a' ≤ c && c ≤ 'z') && cs.all Char.isAlphanum

/-- Well-formed-identifier invariant over a term: every `Identifier.name` and
every `Abstraction.param` is a valid lowercase identifier. -/
def wfNode : Node → Bool
  | .identifier n => validLcidString n
  | .abstraction p b => validLcidString p && wfNode b
  | .application l r => wfNode l && wfNode r

/-- No application node anywhere in the term has an application as its
right-hand side.  `render` prints an application bare (no parentheses), so
an application in the right-hand side loses its grouping; this predicate
carves out the fragment on which rendering is faithfully reparsable. -/
def rightFlat : Node → Bool
  | .identifier _ => true
  | .abstraction _ b => rightFlat b
  | .application l r => rightFlat l && rightFlat r && !(Node.isApplication r)

/-- The token sequence that `render` followed by the lexer produces for a
term (proven below as `tokenizeList_render`). -/
def tokensOf : Node → List Token
  | .identifier n => [⟨.lowercaseId, n⟩]
  | .abstraction p b =>
      ⟨.leftParen, "("⟩ :: ⟨.lambda, "λ"⟩ :: ⟨.lowercaseId, p⟩ :: ⟨.dot, "."⟩ ::
        (tokensOf b ++ [⟨.rightParen, ")"⟩])
  | .application l r => tokensOf l ++ tokensOf r

/-- Grafting an accumulator onto the left spine of a term: the result of
letting the application loop continue from accumulator `acc` over the atoms
of `t`. -/
def graft (acc : Node) : Node → Node
  | .application l r => .application (graft acc l) r
  | t => .application acc t

/-- The lookahead at this token list ends the application loop (neither a
`LowercaseId` nor a `LeftParen`). -/
def stopsLoop : List Token → Bool
  | ⟨.lowercaseId, _⟩ :: _ => false
  | ⟨.leftParen, _⟩ :: _ => false
  | _ => true

/-- The character boundary after a rendered term is safe: the next character
(if any) is not ASCII alphanumeric, so it cannot extend a trailing
identifier token. -/
def boundaryOk : List Char → Bool
  | [] => true
  | c :: _ => !(Char.isAlphanum c)

/-! Character-class facts used by the lexer proofs. -/

theorem uint32_le_of_toNat_le {a b : UInt32} (h : a.toNat ≤ b.toNat) : a ≤ b := h

theorem lower_isAlphanum {c : Char} (h1 : 'a' ≤ c) (h2 : c ≤ 'z') :
    Char.isAlphanum c = true := by
  have n1 : 97 ≤ c.toNat := h1
  have n2 : c.toNat ≤ 122 := h2
  simp only [Char.isAlphanum, Char.isAlpha, Char.isLower, Char.isUpper, Char.isDigit,
    Bool.or_eq_true, Bool.and_eq_true, decide_eq_true_eq]
  exact Or.inl (Or.inr ⟨uint32_le_of_toNat_le n1, uint32_le_of_toNat_le n2⟩)

theorem lower_not_whitespace {c : Char} (h1 : 'a' ≤ c) (h2 : c ≤ 'z') :
    isRustWhitespace c = false := by
  have n1 : 97 ≤ c.toNat := h1
  have n2 : c.toNat ≤ 122 := h2
  simp only [isRustWhitespace, Bool.or_eq_false_iff, decide_eq_false_iff_not,
    Bool.and_eq_false_iff, decide_eq_false_iff_not]
  omega

theorem lower_ne_special {c : Char} (h1 : 'a' ≤ c) (h2 : c ≤ 'z') :
    c ≠ '(' ∧ c ≠ ')' ∧ c ≠ 'λ' ∧ c ≠ '\\' ∧ c ≠ '.' := by
  have n1 : 97 ≤ c.toNat := h1
  have n2 : c.toNat ≤ 122 := h2
  refine ⟨?_, ?_, ?_, ?_, ?_⟩ <;>
    { intro h; subst h; revert n1 n2; decide }

/-! Termination-flavoured facts about the lexer. -/

theorem skip_whitespace_length_le (l : List Char) :
    (skip_whitespace l).length ≤ l.length := by
  induction l with
  | nil => simp [skip_whitespace]
  | cons c cs ih =>
    simp only [skip_whitespace]
    split
    · exact Nat.le_trans ih (Nat.le_succ _)
    · simp

theorem dropWhile_length_le (p : Char → Bool) (l : List Char) :
    (List.dropWhile p l).length ≤ l.length := by
  induction l with
  | nil => simp
  | cons c cs ih =>
    simp only [List.dropWhile_cons]
    split
    · exact Nat.le_trans ih (Nat.le_succ _)
    · simp

theorem next_token_length {input : List Char} {tk : Token} {rest : List Char}
    (h : next_token input = some (tk, rest)) : rest.length < input.length := by
  have hsl0 := skip_whitespace_length_le input
  cases hs : skip_whitespace input with
  | nil =>
    simp only [next_token, hs] at h
    exact absurd h (by simp)
  | cons c cs =>
    rw [hs] at hsl0
    simp only [List.length_cons] at hsl0
    simp only [next_token, hs] at h
    split at h
    · simp only [Option.some.injEq, Prod.mk.injEq] at h
      obtain ⟨-, h2⟩ := h; subst h2; omega
    · split at h
      · simp only [Option.some.injEq, Prod.mk.injEq] at h
        obtain ⟨-, h2⟩ := h; subst h2; omega
      · split at h
        · simp only [Option.some.injEq, Prod.mk.injEq] at h
          obtain ⟨-, h2⟩ := h; subst h2; omega
        · split at h
          · simp only [Option.some.injEq, Prod.mk.injEq] at h
            obtain ⟨-, h2⟩ := h; subst h2; omega
          · split at h
            · simp only [Option.some.injEq, Prod.mk.injEq] at h
              obtain ⟨-, h2⟩ := h; subst h2; omega
            · split at h
              · rename_i hlow
                simp only [Option.some.injEq, Prod.mk.injEq] at h
                have hc : Char.isAlphanum c = true := by
                  simp only [Bool.and_eq_true, decide_eq_true_eq] at hlow
                  exact lower_isAlphanum hlow.1 hlow.2
                have hd : List.dropWhile Char.isAlphanum (c :: cs) =
                    List.dropWhile Char.isAlphanum cs := by
                  simp [List.dropWhile_cons, hc]
                have hle := dropWhile_length_le Char.isAlphanum cs
                rw [← h.2, hd]
                omega
              · simp only [Option.some.injEq, Prod.mk.injEq] at h
                obtain ⟨-, h2⟩ := h; subst h2; omega

/-! Fuel irrelevance for the tokenizer. -/

theorem tokenizeF_irrel : ∀ f f' (input : List Char), input.length < f →
    input.length < f' → tokenizeF f input = tokenizeF f' input := by
  intro f
  induction f with
  | zero => intro f' input h; omega
  | succ f ih =>
    intro f' input h h'
    cases f' with
    | zero => omega
    | succ g =>
      simp only [tokenizeF]
      cases hnt : next_token input with
      | none => rfl
      | some p =>
        obtain ⟨tk, rest⟩ := p
        have hlt := next_token_length hnt
        have e1 : tokenizeF f rest = tokenizeF g rest := ih g rest (by omega) (by omega)
        exact congrArg (fun ts => tk :: ts) e1

theorem tokenizeList_step {input : List Char} {tk : Token} {rest : List Char}
    (h : next_token input = some (tk, rest)) :
    tokenizeList input = tk :: tokenizeList rest := by
  have hlt := next_token_length h
  calc tokenizeList input = tk :: tokenizeF input.length rest := by
        simp only [tokenizeList, tokenizeF, h]
    _ = tk :: tokenizeList rest := by
        rw [tokenizeF_irrel input.length (rest.length + 1) rest (by omega) (by omega)]
        rfl

theorem tokenizeList_none {input : List Char} (h : next_token input = none) :
    tokenizeList input = [] := by
  simp only [tokenizeList, tokenizeF, h]

/-! Shape of `next_token` on each kind of input head. -/

theorem next_token_lparen (l : List Char) :
    next_token ('(' :: l) = some (⟨.leftParen, "("⟩, l) := rfl

theorem next_token_rparen (l : List Char) :
    next_token (')' :: l) = some (⟨.rightParen, ")"⟩, l) := rfl

theorem next_token_lambda (l : List Char) :
    next_token ('λ' :: l) = some (⟨.lambda, "λ"⟩, l) := rfl

theorem next_token_dot (l : List Char) :
    next_token ('.' :: l) = some (⟨.dot, "."⟩, l) := rfl

theorem next_token_ws {c : Char} (hc : isRustWhitespace c = true) (l : List Char) :
    next_token (c :: l) = next_token l := by
  simp only [next_token, skip_whitespace, hc, if_true]

theorem takeWhile_append_boundary {p : Char → Bool} : ∀ (m rest : List Char),
    (∀ x ∈ m, p x = true) → (∀ c l', rest = c :: l' → p c = false) →
    List.takeWhile p (m ++ rest) = m ∧ List.dropWhile p (m ++ rest) = rest := by
  intro m
  induction m with
  | nil =>
    intro rest _ hb
    cases rest with
    | nil => simp
    | cons c cs =>
      have hc := hb c cs rfl
      simp only [List.nil_append]
      constructor
      · simp [List.takeWhile_cons, hc]
      · simp [List.dropWhile_cons, hc]
  | cons x m ih =>
    intro rest hall hb
    have hx : p x = true := hall x (by simp)
    have hm : ∀ y ∈ m, p y = true := fun y hy => hall y (by simp [hy])
    obtain ⟨ht, hd⟩ := ih rest hm hb
    constructor
    · simp [List.takeWhile_cons, hx, ht]
    · simp [List.dropWhile_cons, hx, hd]

theorem string_mk_toList (s : String) : String.mk s.toList = s := by
  cases s; rfl

theorem skip_whitespace_cons_false {c : Char} (h : isRustWhitespace c = false)
    (l : List Char) : skip_whitespace (c :: l) = c :: l := by
  simp [skip_whitespace, h]

theorem next_token_name {n : String} {rest : List Char}
    (hn : validLcidString n = true) (hb : boundaryOk rest = true) :
    next_token (n.toList ++ rest) = some (⟨.lowercaseId, n⟩, rest) := by
  unfold validLcidString at hn
  cases hcl : n.toList with
  | nil => rw [hcl] at hn; simp at hn
  | cons c cs =>
    rw [hcl] at hn
    simp only [Bool.and_eq_true, decide_eq_true_eq, List.all_eq_true] at hn
    obtain ⟨⟨h1, h2⟩, hall⟩ := hn
    have hnw := lower_not_whitespace h1 h2
    obtain ⟨ne1, ne2, ne3, ne4, ne5⟩ := lower_ne_special h1 h2
    have hallc : ∀ x ∈ c :: cs, Char.isAlphanum x = true := by
      intro x hx
      rcases List.mem_cons.mp hx with hx | hx
      · subst hx; exact lower_isAlphanum h1 h2
      · exact hall x hx
    have hbm : ∀ x l', rest = x :: l' → Char.isAlphanum x = false := by
      intro x l' hx
      subst hx
      unfold boundaryOk at hb
      simpa using hb
    obtain ⟨ht, hd⟩ := takeWhile_append_boundary (c :: cs) rest hallc hbm
    simp only [next_token, List.cons_append, skip_whitespace_cons_false hnw]
    rw [if_neg ne1, if_neg ne2, if_neg ne3, if_neg ne4, if_neg ne5,
      if_pos (by simp [h1, h2])]
    rw [show c :: (cs ++ rest) = (c :: cs) ++ rest from rfl, ht, hd, ← hcl,
      string_mk_toList]

theorem tokenizeList_ws {c : Char} (hc : isRustWhitespace c = true) (l : List Char) :
    tokenizeList (c :: l) = tokenizeList l := by
  cases hnt : next_token l with
  | none =>
    rw [tokenizeList_none hnt, tokenizeList_none (by rw [next_token_ws hc, hnt])]
  | some p =>
    obtain ⟨tk, rest⟩ := p
    rw [tokenizeList_step hnt, tokenizeList_step (by rw [next_token_ws hc, hnt])]

theorem string_toList_append (s t : String) : (s ++ t).toList = s.toList ++ t.toList :=
  String.data_append s t

theorem render_abs_toList (p : String) (b : Node) :
    (render (.abstraction p b)).toList =
      '(' :: 'λ' :: (p.toList ++ '.' :: ' ' :: ((render b).toList ++ [')'])) := by
  show ("(λ" ++ p ++ ". " ++ render b ++ ")").toList = _
  simp [string_toList_append]

theorem render_app_toList (l r : Node) :
    (render (.application l r)).toList = (render l).toList ++ ' ' :: (render r).toList := by
  show (render l ++ " " ++ render r).toList = _
  simp [string_toList_append]

/-- Lexing a rendered term: under the well-formed-identifier invariant, the
token stream of `render t` followed by any boundary-safe remainder is exactly
`tokensOf t` followed by the tokens of the remainder. -/
theorem tokenizeList_render : ∀ (t : Node) (rest : List Char), wfNode t = true →
    boundaryOk rest = true →
    tokenizeList ((render t).toList ++ rest) = tokensOf t ++ tokenizeList rest := by
  intro t
  induction t with
  | identifier n =>
    intro rest hwf hb
    have hn : validLcidString n = true := by simpa [wfNode] using hwf
    show tokenizeList (n.toList ++ rest) = _
    rw [tokenizeList_step (next_token_name hn hb)]
    rfl
  | abstraction p b ih =>
    intro rest hwf hb
    have hp : validLcidString p = true := by
      simp only [wfNode, Bool.and_eq_true] at hwf; exact hwf.1
    have hwb : wfNode b = true := by
      simp only [wfNode, Bool.and_eq_true] at hwf; exact hwf.2
    rw [render_abs_toList]
    simp only [List.cons_append, List.append_assoc]
    rw [tokenizeList_step (next_token_lparen _), tokenizeList_step (next_token_lambda _)]
    rw [tokenizeList_step (next_token_name hp (by simp [boundaryOk]))]
    rw [tokenizeList_step (next_token_dot _), tokenizeList_ws (by simp [isRustWhitespace])]
    simp only [List.nil_append]
    rw [ih (')' :: rest) hwb (by simp [boundaryOk])]
    rw [tokenizeList_step (next_token_rparen _)]
    simp [tokensOf]
  | application l r ihl ihr =>
    intro rest hwf hb
    have hwl : wfNode l = true := by
      simp only [wfNode, Bool.and_eq_true] at hwf; exact hwf.1
    have hwr : wfNode r = true := by
      simp only [wfNode, Bool.and_eq_true] at hwf; exact hwf.2
    rw [render_app_toList]
    rw [show (render l).toList ++ ' ' :: (render r).toList ++ rest =
        (render l).toList ++ (' ' :: ((render r).toList ++ rest)) from by simp]
    rw [ihl (' ' :: ((render r).toList ++ rest)) hwl (by simp [boundaryOk])]
    rw [tokenizeList_ws (by simp [isRustWhitespace])]
    rw [ihr rest hwr hb]
    simp [tokensOf]

/-! Fuel monotonicity for the parser: a result obtained with some fuel is
stable under giving more fuel. -/

theorem parse_mono : ∀ f : Nat,
    (∀ toks r, parse_termF f toks = some r → parse_termF (f + 1) toks = some r) ∧
    (∀ toks r, parse_abstractionF f toks = some r → parse_abstractionF (f + 1) toks = some r) ∧
    (∀ toks r, parse_applicationF f toks = some r → parse_applicationF (f + 1) toks = some r) ∧
    (∀ lhs toks r, parse_app_loopF f lhs toks = some r → parse_app_loopF (f + 1) lhs toks = some r) ∧
    (∀ toks r, parse_atomF f toks = some r → parse_atomF (f + 1) toks = some r) ∧
    (∀ toks r, parse_parenthesizedF f toks = some r → parse_parenthesizedF (f + 1) toks = some r) := by
  intro f
  induction f with
  | zero =>
    refine ⟨?_, ?_, ?_, ?_, ?_, ?_⟩
    · intro toks r h; exact absurd h (by simp [parse_termF])
    · intro toks r h; exact absurd h (by simp [parse_abstractionF])
    · intro toks r h; exact absurd h (by simp [parse_applicationF])
    · intro lhs toks r h; exact absurd h (by simp [parse_app_loopF])
    · intro toks r h; exact absurd h (by simp [parse_atomF])
    · intro toks r h; exact absurd h (by simp [parse_parenthesizedF])
  | succ f ih =>
    obtain ⟨ihT, ihB, ihA, ihL, ihM, ihP⟩ := ih
    refine ⟨?_, ?_, ?_, ?_, ?_, ?_⟩
    · -- parse_termF
      intro toks r h
      simp only [parse_termF] at h ⊢
      cases hck : currentKind toks with
      | none => rw [hck] at h; exact ihA toks r h
      | some k =>
        rw [hck] at h
        cases k with
        | lambda => exact ihB toks r h
        | leftParen => exact ihA toks r h
        | rightParen => exact ihA toks r h
        | dot => exact ihA toks r h
        | lowercaseId => exact ihA toks r h
        | unknown => exact ihA toks r h
    · -- parse_abstractionF
      intro toks r h
      simp only [parse_abstractionF] at h ⊢
      cases htl : toks.tail with
      | nil => rw [htl] at h; exact h
      | cons t rest2 =>
        rw [htl] at h
        obtain ⟨k, text⟩ := t
        cases k with
        | lowercaseId =>
          cases hex : expect .dot rest2 with
          | error e =>
            simp only [hex] at h ⊢
            exact h
          | ok rest3 =>
            cases hpt : parse_termF f rest3 with
            | none =>
              simp only [hex, hpt] at h
              exact absurd h (by simp)
            | some pr =>
              simp only [hex, hpt] at h
              simp only [hex, ihT rest3 pr hpt]
              exact h
        | leftParen => exact h
        | rightParen => exact h
        | lambda => exact h
        | dot => exact h
        | unknown => exact h
    · -- parse_applicationF
      intro toks r h
      simp only [parse_applicationF] at h ⊢
      cases hpa : parse_atomF f toks with
      | none =>
        simp only [hpa] at h
        exact absurd h (by simp)
      | some pr =>
        simp only [hpa] at h
        simp only [ihM toks pr hpa]
        cases pr with
        | error e => exact h
        | ok p =>
          obtain ⟨lhs, rest⟩ := p
          exact ihL lhs rest r h
    · -- parse_app_loopF
      intro lhs toks r h
      simp only [parse_app_loopF] at h ⊢
      cases hck : currentKind toks with
      | none => simp only [hck] at h ⊢; exact h
      | some k =>
        simp only [hck] at h ⊢
        cases k with
        | lowercaseId =>
          cases hpa : parse_atomF f toks with
          | none =>
            simp only [hpa] at h
            exact absurd h (by simp)
          | some pr =>
            simp only [hpa] at h
            simp only [ihM toks pr hpa]
            cases pr with
            | error e => exact h
            | ok p =>
              obtain ⟨rhs, rest⟩ := p
              exact ihL (.application lhs rhs) rest r h
        | leftParen =>
          cases hpa : parse_atomF f toks with
          | none =>
            simp only [hpa] at h
            exact absurd h (by simp)
          | some pr =>
            simp only [hpa] at h
            simp only [ihM toks pr hpa]
            cases pr with
            | error e => exact h
            | ok p =>
              obtain ⟨rhs, rest⟩ := p
              exact ihL (.application lhs rhs) rest r h
        | rightParen => exact h
        | lambda => exact h
        | dot => exact h
        | unknown => exact h
    · -- parse_atomF
      intro toks r h
      simp only [parse_atomF] at h ⊢
      cases hck : currentKind toks with
      | none => simp only [hck] at h ⊢; exact h
      | some k =>
        simp only [hck] at h ⊢
        cases k with
        | leftParen => exact ihP toks r h
        | lowercaseId => exact h
        | rightParen => exact h
        | lambda => exact h
        | dot => exact h
        | unknown => exact h
    · -- parse_parenthesizedF
      intro toks r h
      simp only [parse_parenthesizedF] at h ⊢
      cases hpt : parse_termF f toks.tail with
      | none =>
        simp only [hpt] at h
        exact absurd h (by simp)
      | some pr =>
        simp only [hpt] at h
        simp only [ihT toks.tail pr hpt]
        exact h

theorem parse_termF_mono {f f' : Nat} {toks : List Token} {r : PResult}
    (hle : f ≤ f') (h : parse_termF f toks = some r) : parse_termF f' toks = some r := by
  induction hle with
  | refl => exact h
  | step _ ih => exact (parse_mono _).1 _ _ ih

theorem parse_applicationF_mono {f f' : Nat} {toks : List Token} {r : PResult}
    (hle : f ≤ f') (h : parse_applicationF f toks = some r) :
    parse_applicationF f' toks = some r := by
  induction hle with
  | refl => exact h
  | step _ ih => exact (parse_mono _).2.2.1 _ _ ih

theorem parse_app_loopF_mono {f f' : Nat} {lhs : Node} {toks : List Token} {r : PResult}
    (hle : f ≤ f') (h : parse_app_loopF f lhs toks = some r) :
    parse_app_loopF f' lhs toks = some r := by
  induction hle with
  | refl => exact h
  | step _ ih => exact (parse_mono _).2.2.2.1 _ _ _ ih

theorem parse_atomF_mono {f f' : Nat} {toks : List Token} {r : PResult}
    (hle : f ≤ f') (h : parse_atomF f toks = some r) : parse_atomF f' toks = some r := by
  induction hle with
  | refl => exact h
  | step _ ih => exact (parse_mono _).2.2.2.2.1 _ _ ih

/-! Token consumption: a successful parse leaves a strictly shorter suffix of
the token list (the application loop may leave the list unchanged). -/

theorem expect_ok {kind : TokenKind} {toks rest : List Token}
    (h : expect kind toks = .ok rest) : ∃ t, toks = t :: rest ∧ t.kind = kind := by
  cases toks with
  | nil => exact absurd h (by simp [expect])
  | cons t ts =>
    simp only [expect] at h
    split at h
    · rename_i hk
      simp only [Except.ok.injEq] at h
      exact ⟨t, by rw [h], hk⟩
    · exact absurd h (by simp)

theorem parse_consume : ∀ f : Nat,
    (∀ toks n rest, parse_termF f toks = some (.ok (n, rest)) →
      rest.length < toks.length ∧ ∀ x ∈ rest, x ∈ toks) ∧
    (∀ toks n rest, parse_abstractionF f toks = some (.ok (n, rest)) →
      rest.length < toks.length ∧ ∀ x ∈ rest, x ∈ toks) ∧
    (∀ toks n rest, parse_applicationF f toks = some (.ok (n, rest)) →
      rest.length < toks.length ∧ ∀ x ∈ rest, x ∈ toks) ∧
    (∀ lhs toks n rest, parse_app_loopF f lhs toks = some (.ok (n, rest)) →
      rest.length ≤ toks.length ∧ ∀ x ∈ rest, x ∈ toks) ∧
    (∀ toks n rest, parse_atomF f toks = some (.ok (n, rest)) →
      rest.length < toks.length ∧ ∀ x ∈ rest, x ∈ toks) ∧
    (∀ toks n rest, parse_parenthesizedF f toks = some (.ok (n, rest)) →
      rest.length < toks.length ∧ ∀ x ∈ rest, x ∈ toks) := by
  intro f
  induction f with
  | zero =>
    refine ⟨?_, ?_, ?_, ?_, ?_, ?_⟩
    · intro toks n rest h; exact absurd h (by simp [parse_termF])
    · intro toks n rest h; exact absurd h (by simp [parse_abstractionF])
    · intro toks n rest h; exact absurd h (by simp [parse_applicationF])
    · intro lhs toks n rest h; exact absurd h (by simp [parse_app_loopF])
    · intro toks n rest h; exact absurd h (by simp [parse_atomF])
    · intro toks n rest h; exact absurd h (by simp [parse_parenthesizedF])
  | succ f ih =>
    obtain ⟨ihT, ihB, ihA, ihL, ihM, ihP⟩ := ih
    refine ⟨?_, ?_, ?_, ?_, ?_, ?_⟩
    · -- parse_termF
      intro toks n rest h
      simp only [parse_termF] at h
      cases hck : currentKind toks with
      | none => rw [hck] at h; exact ihA toks n rest h
      | some k =>
        rw [hck] at h
        cases k with
        | lambda => exact ihB toks n rest h
        | leftParen => exact ihA toks n rest h
        | rightParen => exact ihA toks n rest h
        | dot => exact ihA toks n rest h
        | lowercaseId => exact ihA toks n rest h
        | unknown => exact ihA toks n rest h
    · -- parse_abstractionF
      intro toks n rest h
      simp only [parse_abstractionF] at h
      cases toks with
      | nil => simp at h
      | cons t0 ts =>
        simp only [List.tail_cons] at h
        cases ts with
        | nil => exact absurd h (by simp)
        | cons t1 rest2 =>
          obtain ⟨k, text⟩ := t1
          cases k with
          | lowercaseId =>
            cases hex : expect .dot rest2 with
            | error e =>
              simp only [hex] at h
              exact absurd h (by simp)
            | ok rest3 =>
              obtain ⟨td, h2, -⟩ := expect_ok hex
              cases hpt : parse_termF f rest3 with
              | none =>
                simp only [hex, hpt] at h
                exact absurd h (by simp)
              | some pr =>
                cases pr with
                | error e =>
                  simp only [hex, hpt] at h
                  exact absurd h (by simp)
                | ok p =>
                  obtain ⟨body, rest4⟩ := p
                  simp only [hex, hpt, Option.some.injEq, Except.ok.injEq,
                    Prod.mk.injEq] at h
                  obtain ⟨-, h4⟩ := h
                  obtain ⟨hlt, hmem⟩ := ihT rest3 body rest4 hpt
                  subst h4
                  subst h2
                  constructor
                  · simp only [List.length_cons] at *
                    omega
                  · intro x hx
                    have := hmem x hx
                    simp only [List.mem_cons] at *
                    tauto
          | leftParen => exact absurd h (by simp)
          | rightParen => exact absurd h (by simp)
          | lambda => exact absurd h (by simp)
          | dot => exact absurd h (by simp)
          | unknown => exact absurd h (by simp)
    · -- parse_applicationF
      intro toks n rest h
      simp only [parse_applicationF] at h
      cases hpa : parse_atomF f toks with
      | none =>
        simp only [hpa] at h
        exact absurd h (by simp)
      | some pr =>
        cases pr with
        | error e =>
          simp only [hpa] at h
          exact absurd h (by simp)
        | ok p =>
          obtain ⟨lhs0, rest0⟩ := p
          simp only [hpa] at h
          obtain ⟨hlt0, hmem0⟩ := ihM toks lhs0 rest0 hpa
          obtain ⟨hlt1, hmem1⟩ := ihL lhs0 rest0 n rest h
          exact ⟨by omega, fun x hx => hmem0 x (hmem1 x hx)⟩
    · -- parse_app_loopF
      intro lhs toks n rest h
      simp only [parse_app_loopF] at h
      cases hck : currentKind toks with
      | none =>
        rw [hck] at h
        simp only [Option.some.injEq, Except.ok.injEq, Prod.mk.injEq] at h
        obtain ⟨-, h2⟩ := h
        subst h2
        exact ⟨Nat.le_refl _, fun x hx => hx⟩
      | some k =>
        rw [hck] at h
        cases k with
        | lowercaseId =>
          cases hpa : parse_atomF f toks with
          | none =>
            simp only [hpa] at h
            exact absurd h (by simp)
          | some pr =>
            cases pr with
            | error e =>
              simp only [hpa] at h
              exact absurd h (by simp)
            | ok p =>
              obtain ⟨rhs0, rest0⟩ := p
              simp only [hpa] at h
              obtain ⟨hlt0, hmem0⟩ := ihM toks rhs0 rest0 hpa
              obtain ⟨hlt1, hmem1⟩ := ihL (.application lhs rhs0) rest0 n rest h
              exact ⟨by omega, fun x hx => hmem0 x (hmem1 x hx)⟩
        | leftParen =>
          cases hpa : parse_atomF f toks with
          | none =>
            simp only [hpa] at h
            exact absurd h (by simp)
          | some pr =>
            cases pr with
            | error e =>
              simp only [hpa] at h
              exact absurd h (by simp)
            | ok p =>
              obtain ⟨rhs0, rest0⟩ := p
              simp only [hpa] at h
              obtain ⟨hlt0, hmem0⟩ := ihM toks rhs0 rest0 hpa
              obtain ⟨hlt1, hmem1⟩ := ihL (.application lhs rhs0) rest0 n rest h
              exact ⟨by omega, fun x hx => hmem0 x (hmem1 x hx)⟩
        | rightParen =>
          simp only [Option.some.injEq, Except.ok.injEq, Prod.mk.injEq] at h
          obtain ⟨-, h2⟩ := h
          subst h2
          exact ⟨Nat.le_refl _, fun x hx => hx⟩
        | lambda =>
          simp only [Option.some.injEq, Except.ok.injEq, Prod.mk.injEq] at h
          obtain ⟨-, h2⟩ := h
          subst h2
          exact ⟨Nat.le_refl _, fun x hx => hx⟩
        | dot =>
          simp only [Option.some.injEq, Except.ok.injEq, Prod.mk.injEq] at h
          obtain ⟨-, h2⟩ := h
          subst h2
          exact ⟨Nat.le_refl _, fun x hx => hx⟩
        | unknown =>
          simp only [Option.some.injEq, Except.ok.injEq, Prod.mk.injEq] at h
          obtain ⟨-, h2⟩ := h
          subst h2
          exact ⟨Nat.le_refl _, fun x hx => hx⟩
    · -- parse_atomF
      intro toks n rest h
      simp only [parse_atomF] at h
      cases toks with
      | nil =>
        simp only [currentKind] at h
        exact absurd h (by simp)
      | cons t0 ts =>
        obtain ⟨k, tx⟩ := t0
        simp only [currentKind] at h
        cases k with
        | leftParen => exact ihP (⟨.leftParen, tx⟩ :: ts) n rest h
        | lowercaseId =>
          simp only [parse_identifier, Option.some.injEq, Except.ok.injEq,
            Prod.mk.injEq] at h
          obtain ⟨-, h2⟩ := h
          subst h2
          exact ⟨by simp, fun x hx => by simp [hx]⟩
        | rightParen => exact absurd h (by simp)
        | lambda => exact absurd h (by simp)
        | dot => exact absurd h (by simp)
        | unknown => exact absurd h (by simp)
    · -- parse_parenthesizedF
      intro toks n rest h
      simp only [parse_parenthesizedF] at h
      cases hpt : parse_termF f toks.tail with
      | none =>
        simp only [hpt] at h
        exact absurd h (by simp)
      | some pr =>
        cases pr with
        | error e =>
          simp only [hpt] at h
          exact absurd h (by simp)
        | ok p =>
          obtain ⟨term, rest2⟩ := p
          simp only [hpt] at h
          cases hex : expect .rightParen rest2 with
          | error e =>
            simp only [hex] at h
            exact absurd h (by simp)
          | ok rest3 =>
            obtain ⟨tr, h2, -⟩ := expect_ok hex
            simp only [hex, Option.some.injEq, Except.ok.injEq, Prod.mk.injEq] at h
            obtain ⟨-, h4⟩ := h
            subst h4
            obtain ⟨hlt, hmem⟩ := ihT toks.tail term rest2 hpt
            have htl : toks.tail.length = toks.length - 1 := by
              cases toks <;> simp
            subst h2
            constructor
            · simp only [List.length_cons] at *
              omega
            · intro x hx
              have hx2 : x ∈ toks.tail := hmem x (by simp [hx])
              cases toks with
              | nil => simp at hx2
              | cons t0 ts => simp only [List.tail_cons] at hx2; simp [hx2]

/-! Fuel sufficiency: with fuel a little over four times the token count, no
parse function ever runs out of fuel, so the fueled embedding computes
exactly what the Rust recursion computes. -/

theorem parse_fuel : ∀ f : Nat,
    (∀ toks, 4 * toks.length + 4 ≤ f → parse_termF f toks ≠ none) ∧
    (∀ toks, 4 * toks.length + 3 ≤ f → parse_abstractionF f toks ≠ none) ∧
    (∀ toks, 4 * toks.length + 3 ≤ f → parse_applicationF f toks ≠ none) ∧
    (∀ lhs toks, 4 * toks.length + 3 ≤ f → parse_app_loopF f lhs toks ≠ none) ∧
    (∀ toks, 4 * toks.length + 2 ≤ f → parse_atomF f toks ≠ none) ∧
    (∀ toks, toks ≠ [] → 4 * toks.length + 1 ≤ f → parse_parenthesizedF f toks ≠ none) := by
  intro f
  induction f with
  | zero =>
    refine ⟨?_, ?_, ?_, ?_, ?_, ?_⟩
    · intro toks hf; omega
    · intro toks hf; omega
    · intro toks hf; omega
    · intro lhs toks hf; omega
    · intro toks hf; omega
    · intro toks hne hf; omega
  | succ f ih =>
    obtain ⟨ihT, ihB, ihA, ihL, ihM, ihP⟩ := ih
    refine ⟨?_, ?_, ?_, ?_, ?_, ?_⟩
    · -- parse_termF
      intro toks hf
      simp only [parse_termF]
      cases hck : currentKind toks with
      | none => exact ihA toks (by omega)
      | some k =>
        cases k with
        | lambda => exact ihB toks (by omega)
        | leftParen => exact ihA toks (by omega)
        | rightParen => exact ihA toks (by omega)
        | dot => exact ihA toks (by omega)
        | lowercaseId => exact ihA toks (by omega)
        | unknown => exact ihA toks (by omega)
    · -- parse_abstractionF
      intro toks hf
      simp only [parse_abstractionF]
      cases toks with
      | nil => simp
      | cons t0 ts =>
        simp only [List.tail_cons, List.length_cons] at hf ⊢
        cases ts with
        | nil => simp
        | cons t1 rest2 =>
          obtain ⟨k, text⟩ := t1
          simp only [List.length_cons] at hf
          cases k with
          | lowercaseId =>
            cases hex : expect .dot rest2 with
            | error e => simp [hex]
            | ok rest3 =>
              obtain ⟨td, h2, -⟩ := expect_ok hex
              have hlen : rest2.length = rest3.length + 1 := by rw [h2]; simp
              cases hpt : parse_termF f rest3 with
              | none => exact absurd hpt (ihT rest3 (by omega))
              | some pr =>
                simp only [hex, hpt]
                cases pr with
                | error e => simp
                | ok p => obtain ⟨body, rest4⟩ := p; simp
          | leftParen => simp
          | rightParen => simp
          | lambda => simp
          | dot => simp
          | unknown => simp
    · -- parse_applicationF
      intro toks hf
      simp only [parse_applicationF]
      cases hpa : parse_atomF f toks with
      | none => exact absurd hpa (ihM toks (by omega))
      | some pr =>
        cases pr with
        | error e => simp
        | ok p =>
          obtain ⟨lhs0, rest0⟩ := p
          have hc := ((parse_consume f).2.2.2.2.1 toks lhs0 rest0 hpa).1
          exact ihL lhs0 rest0 (by omega)
    · -- parse_app_loopF
      intro lhs toks hf
      simp only [parse_app_loopF]
      cases hck : currentKind toks with
      | none => simp
      | some k =>
        cases k with
        | lowercaseId =>
          cases hpa : parse_atomF f toks with
          | none => exact absurd hpa (ihM toks (by omega))
          | some pr =>
            cases pr with
            | error e => simp
            | ok p =>
              obtain ⟨rhs0, rest0⟩ := p
              have hc := ((parse_consume f).2.2.2.2.1 toks rhs0 rest0 hpa).1
              exact ihL (.application lhs rhs0) rest0 (by omega)
        | leftParen =>
          cases hpa : parse_atomF f toks with
          | none => exact absurd hpa (ihM toks (by omega))
          | some pr =>
            cases pr with
            | error e => simp
            | ok p =>
              obtain ⟨rhs0, rest0⟩ := p
              have hc := ((parse_consume f).2.2.2.2.1 toks rhs0 rest0 hpa).1
              exact ihL (.application lhs rhs0) rest0 (by omega)
        | rightParen => simp
        | lambda => simp
        | dot => simp
        | unknown => simp
    · -- parse_atomF
      intro toks hf
      simp only [parse_atomF]
      cases toks with
      | nil => simp [currentKind]
      | cons t0 ts =>
        obtain ⟨k, tx⟩ := t0
        simp only [currentKind, List.length_cons] at hf ⊢
        cases k with
        | leftParen => exact ihP (⟨.leftParen, tx⟩ :: ts) (by simp) (by simp; omega)
        | lowercaseId => simp
        | rightParen => simp
        | lambda => simp
        | dot => simp
        | unknown => simp
    · -- parse_parenthesizedF
      intro toks hne hf
      simp only [parse_parenthesizedF]
      cases toks with
      | nil => exact absurd rfl hne
      | cons t0 ts =>
        simp only [List.tail_cons, List.length_cons] at hf ⊢
        cases hpt : parse_termF f ts with
        | none => exact absurd hpt (ihT ts (by omega))
        | some pr =>
          cases pr with
          | error e => simp
          | ok p =>
            obtain ⟨term, rest2⟩ := p
            cases hex : expect .rightParen rest2 with
            | error e => simp [hex]
            | ok rest3 => simp [hex]

/-! Parsing a rendered token stream back into the original term. -/

theorem tokensOf_head : ∀ (t : Node) (extra : List Token),
    currentKind (tokensOf t ++ extra) = some .lowercaseId ∨
    currentKind (tokensOf t ++ extra) = some .leftParen := by
  intro t
  induction t with
  | identifier n => intro extra; left; rfl
  | abstraction p b ih => intro extra; right; rfl
  | application l r ihl ihr =>
    intro extra
    have h := ihl (tokensOf r ++ extra)
    simpa [tokensOf, List.append_assoc] using h

theorem loop_stops {extra : List Token} (h : stopsLoop extra = true) (f : Nat) (acc : Node) :
    parse_app_loopF (f + 1) acc extra = some (.ok (acc, extra)) := by
  cases extra with
  | nil => rfl
  | cons t rest =>
    obtain ⟨k, tx⟩ := t
    cases k with
    | lowercaseId => simp [stopsLoop] at h
    | leftParen => simp [stopsLoop] at h
    | rightParen => rfl
    | lambda => rfl
    | dot => rfl
    | unknown => rfl

theorem graft_atom (t acc : Node) (h : Node.isApplication t = false) :
    graft acc t = .application acc t := by
  cases t with
  | application l r => simp [Node.isApplication] at h
  | identifier n => rfl
  | abstraction p b => rfl

theorem loop_of_atom {t : Node}
    (hAtom : ∀ extra, ∃ f, parse_atomF f (tokensOf t ++ extra) = some (.ok (t, extra))) :
    ∀ acc extra r0, (∃ f, parse_app_loopF f (.application acc t) extra = some r0) →
      ∃ f, parse_app_loopF f acc (tokensOf t ++ extra) = some r0 := by
  intro acc extra r0 h0x
  obtain ⟨f0, h0⟩ := h0x
  obtain ⟨f1, h1⟩ := hAtom extra
  refine ⟨max f0 f1 + 1, ?_⟩
  have h1' : parse_atomF (max f0 f1) (tokensOf t ++ extra) = some (.ok (t, extra)) :=
    parse_atomF_mono (le_max_right _ _) h1
  have h0' : parse_app_loopF (max f0 f1) (.application acc t) extra = some r0 :=
    parse_app_loopF_mono (le_max_left _ _) h0
  rcases tokensOf_head t extra with hh | hh
  · simp only [parse_app_loopF, hh, h1', h0']
  · simp only [parse_app_loopF, hh, h1', h0']

theorem app_of_atom {t : Node}
    (hAtom : ∀ extra, ∃ f, parse_atomF f (tokensOf t ++ extra) = some (.ok (t, extra))) :
    ∀ extra r0, (∃ f, parse_app_loopF f t extra = some r0) →
      ∃ f, parse_applicationF f (tokensOf t ++ extra) = some r0 := by
  intro extra r0 h0x
  obtain ⟨f0, h0⟩ := h0x
  obtain ⟨f1, h1⟩ := hAtom extra
  refine ⟨max f0 f1 + 1, ?_⟩
  have h1' : parse_atomF (max f0 f1) (tokensOf t ++ extra) = some (.ok (t, extra)) :=
    parse_atomF_mono (le_max_right _ _) h1
  have h0' : parse_app_loopF (max f0 f1) t extra = some r0 :=
    parse_app_loopF_mono (le_max_left _ _) h0
  simp only [parse_applicationF, h1', h0']

theorem term_of_app {t : Node}
    (hApp : ∀ extra r0, (∃ f, parse_app_loopF f t extra = some r0) →
      ∃ f, parse_applicationF f (tokensOf t ++ extra) = some r0) :
    ∀ extra, stopsLoop extra = true →
      ∃ f, parse_termF f (tokensOf t ++ extra) = some (.ok (t, extra)) := by
  intro extra hstop
  obtain ⟨f1, h1⟩ := hApp extra (.ok (t, extra)) ⟨1, loop_stops hstop 0 t⟩
  refine ⟨f1 + 1, ?_⟩
  rcases tokensOf_head t extra with hh | hh
  · simp only [parse_termF, hh, h1]
  · simp only [parse_termF, hh, h1]

/-- A term with no application in any right-hand position parses back from
its own token stream: the four components cover `parse_atom`,
the application loop, `parse_application` and `parse_term`. -/
theorem parse_tokensOf : ∀ t : Node,
    (rightFlat t = true → Node.isApplication t = false →
      ∀ extra, ∃ f, parse_atomF f (tokensOf t ++ extra) = some (.ok (t, extra))) ∧
    (rightFlat t = true →
      ∀ acc extra r0, (∃ f, parse_app_loopF f (graft acc t) extra = some r0) →
        ∃ f, parse_app_loopF f acc (tokensOf t ++ extra) = some r0) ∧
    (rightFlat t = true →
      ∀ extra r0, (∃ f, parse_app_loopF f t extra = some r0) →
        ∃ f, parse_applicationF f (tokensOf t ++ extra) = some r0) ∧
    (rightFlat t = true →
      ∀ extra, stopsLoop extra = true →
        ∃ f, parse_termF f (tokensOf t ++ extra) = some (.ok (t, extra))) := by
  intro t
  induction t with
  | identifier n =>
    have hAtom : ∀ extra, ∃ f,
        parse_atomF f (tokensOf (.identifier n) ++ extra) =
          some (.ok (.identifier n, extra)) := by
      intro extra
      exact ⟨1, rfl⟩
    refine ⟨fun _ _ => hAtom, ?_, ?_, ?_⟩
    · intro _ acc extra r0 h0
      rw [graft_atom (Node.identifier n) acc rfl] at h0
      exact loop_of_atom hAtom acc extra r0 h0
    · intro _ extra r0 h0
      exact app_of_atom hAtom extra r0 h0
    · intro _ extra hstop
      exact term_of_app (app_of_atom hAtom) extra hstop
  | abstraction p b ihb =>
    obtain ⟨-, -, -, ihbT⟩ := ihb
    have hAtom : rightFlat (Node.abstraction p b) = true → ∀ extra, ∃ f,
        parse_atomF f (tokensOf (.abstraction p b) ++ extra) =
          some (.ok (.abstraction p b, extra)) := by
      intro hfl extra
      have hflb : rightFlat b = true := by simpa [rightFlat] using hfl
      obtain ⟨fb, hb⟩ := ihbT hflb (⟨.rightParen, ")"⟩ :: extra) rfl
      refine ⟨fb + 4, ?_⟩
      simp only [tokensOf, List.cons_append, List.append_assoc, List.singleton_append]
      simp only [parse_atomF, currentKind, parse_parenthesizedF, List.tail_cons,
        parse_termF, parse_abstractionF, expect, hb, List.nil_append, ite_true]
    refine ⟨fun hfl _ => hAtom hfl, ?_, ?_, ?_⟩
    · intro hfl acc extra r0 h0
      rw [graft_atom (Node.abstraction p b) acc rfl] at h0
      exact loop_of_atom (hAtom hfl) acc extra r0 h0
    · intro hfl extra r0 h0
      exact app_of_atom (hAtom hfl) extra r0 h0
    · intro hfl extra hstop
      exact term_of_app (app_of_atom (hAtom hfl)) extra hstop
  | application l r ihl ihr =>
    obtain ⟨-, ihlL, ihlP, -⟩ := ihl
    obtain ⟨-, ihrL, -, -⟩ := ihr
    have hAppComp : rightFlat (Node.application l r) = true →
        ∀ extra r0, (∃ f, parse_app_loopF f (.application l r) extra = some r0) →
          ∃ f, parse_applicationF f (tokensOf (.application l r) ++ extra) = some r0 := by
      intro hfl extra r0 h0x
      have hfl3 : rightFlat l = true ∧ rightFlat r = true ∧
          Node.isApplication r = false := by
        simpa [rightFlat, and_assoc] using hfl
      obtain ⟨hfll, hflr, hner⟩ := hfl3
      obtain ⟨f0, h0⟩ := h0x
      have h0' : ∃ f, parse_app_loopF f (graft l r) extra = some r0 :=
        ⟨f0, by rw [graft_atom r l hner]; exact h0⟩
      have h1 := ihrL hflr l extra r0 h0'
      have h2 := ihlP hfll (tokensOf r ++ extra) r0 h1
      simpa [tokensOf, List.append_assoc] using h2
    refine ⟨?_, ?_, hAppComp, ?_⟩
    · intro _ hne
      simp [Node.isApplication] at hne
    · intro hfl acc extra r0 h0x
      have hfl3 : rightFlat l = true ∧ rightFlat r = true ∧
          Node.isApplication r = false := by
        simpa [rightFlat, and_assoc] using hfl
      obtain ⟨hfll, hflr, hner⟩ := hfl3
      obtain ⟨f0, h0⟩ := h0x
      have hg : graft acc (Node.application l r) = .application (graft acc l) r := rfl
      rw [hg] at h0
      have h0' : ∃ f, parse_app_loopF f (graft (graft acc l) r) extra = some r0 :=
        ⟨f0, by rw [graft_atom r (graft acc l) hner]; exact h0⟩
      have h1 := ihrL hflr (graft acc l) extra r0 h0'
      have h2 := ihlL hfll acc (tokensOf r ++ extra) r0 h1
      simpa [tokensOf, List.append_assoc] using h2
    · intro hfl extra hstop
      exact term_of_app (hAppComp hfl) extra hstop

/-! Every `LowercaseId` token the lexer produces has valid identifier text. -/

theorem next_token_lcid_valid {input : List Char} {tk : Token} {rest : List Char}
    (h : next_token input = some (tk, rest)) (hk : tk.kind = .lowercaseId) :
    validLcidString tk.text = true := by
  cases hs : skip_whitespace input with
  | nil =>
    simp only [next_token, hs] at h
    exact absurd h (by simp)
  | cons c cs =>
    simp only [next_token, hs] at h
    split at h
    · simp only [Option.some.injEq, Prod.mk.injEq] at h
      obtain ⟨h1, -⟩ := h; rw [← h1] at hk; exact absurd hk (by simp)
    · split at h
      · simp only [Option.some.injEq, Prod.mk.injEq] at h
        obtain ⟨h1, -⟩ := h; rw [← h1] at hk; exact absurd hk (by simp)
      · split at h
        · simp only [Option.some.injEq, Prod.mk.injEq] at h
          obtain ⟨h1, -⟩ := h; rw [← h1] at hk; exact absurd hk (by simp)
        · split at h
          · simp only [Option.some.injEq, Prod.mk.injEq] at h
            obtain ⟨h1, -⟩ := h; rw [← h1] at hk; exact absurd hk (by simp)
          · split at h
            · simp only [Option.some.injEq, Prod.mk.injEq] at h
              obtain ⟨h1, -⟩ := h; rw [← h1] at hk; exact absurd hk (by simp)
            · split at h
              · rename_i hlow
                simp only [Bool.and_eq_true, decide_eq_true_eq] at hlow
                simp only [Option.some.injEq, Prod.mk.injEq] at h
                obtain ⟨h1, -⟩ := h
                have hca : Char.isAlphanum c = true := lower_isAlphanum hlow.1 hlow.2
                rw [← h1]
                simp only [validLcidString]
                have htw : List.takeWhile Char.isAlphanum (c :: cs) =
                    c :: List.takeWhile Char.isAlphanum cs := by
                  simp [List.takeWhile_cons, hca]
                rw [show (String.mk (List.takeWhile Char.isAlphanum (c :: cs))).toList =
                    List.takeWhile Char.isAlphanum (c :: cs) from rfl, htw]
                simp only [Bool.and_eq_true, decide_eq_true_eq, List.all_eq_true]
                refine ⟨⟨hlow.1, hlow.2⟩, ?_⟩
                intro x hx
                exact List.mem_takeWhile_imp hx
              · simp only [Option.some.injEq, Prod.mk.injEq] at h
                obtain ⟨h1, -⟩ := h; rw [← h1] at hk; exact absurd hk (by simp)

theorem tokenizeF_lcid_valid : ∀ (f : Nat) (input : List Char) (tk : Token),
    tk ∈ tokenizeF f input → tk.kind = .lowercaseId → validLcidString tk.text = true := by
  intro f
  induction f with
  | zero => intro input tk hm; simp [tokenizeF] at hm
  | succ f ih =>
    intro input tk hm hk
    simp only [tokenizeF] at hm
    cases hnt : next_token input with
    | none => rw [hnt] at hm; simp at hm
    | some p =>
      obtain ⟨t0, rest⟩ := p
      rw [hnt] at hm
      simp only [List.mem_cons] at hm
      rcases hm with hm | hm
      · subst hm; exact next_token_lcid_valid hnt hk
      · exact ih rest tk hm hk

theorem tokenize_lcid_valid {s : String} {tk : Token} (hm : tk ∈ tokenize s)
    (hk : tk.kind = .lowercaseId) : validLcidString tk.text = true :=
  tokenizeF_lcid_valid _ _ tk hm hk

/-! The parser only builds identifiers and parameters out of `LowercaseId`
tokens, so every parse result satisfies the well-formed-identifier
invariant. -/

theorem parse_wf : ∀ f : Nat,
    (∀ toks n rest, (∀ tk ∈ toks, tk.kind = .lowercaseId → validLcidString tk.text = true) →
      parse_termF f toks = some (.ok (n, rest)) → wfNode n = true) ∧
    (∀ toks n rest, (∀ tk ∈ toks, tk.kind = .lowercaseId → validLcidString tk.text = true) →
      parse_abstractionF f toks = some (.ok (n, rest)) → wfNode n = true) ∧
    (∀ toks n rest, (∀ tk ∈ toks, tk.kind = .lowercaseId → validLcidString tk.text = true) →
      parse_applicationF f toks = some (.ok (n, rest)) → wfNode n = true) ∧
    (∀ lhs toks n rest, (∀ tk ∈ toks, tk.kind = .lowercaseId → validLcidString tk.text = true) →
      wfNode lhs = true →
      parse_app_loopF f lhs toks = some (.ok (n, rest)) → wfNode n = true) ∧
    (∀ toks n rest, (∀ tk ∈ toks, tk.kind = .lowercaseId → validLcidString tk.text = true) →
      parse_atomF f toks = some (.ok (n, rest)) → wfNode n = true) ∧
    (∀ toks n rest, (∀ tk ∈ toks, tk.kind = .lowercaseId → validLcidString tk.text = true) →
      parse_parenthesizedF f toks = some (.ok (n, rest)) → wfNode n = true) := by
  intro f
  induction f with
  | zero =>
    refine ⟨?_, ?_, ?_, ?_, ?_, ?_⟩
    · intro toks n rest hv h; exact absurd h (by simp [parse_termF])
    · intro toks n rest hv h; exact absurd h (by simp [parse_abstractionF])
    · intro toks n rest hv h; exact absurd h (by simp [parse_applicationF])
    · intro lhs toks n rest hv hw h; exact absurd h (by simp [parse_app_loopF])
    · intro toks n rest hv h; exact absurd h (by simp [parse_atomF])
    · intro toks n rest hv h; exact absurd h (by simp [parse_parenthesizedF])
  | succ f ih =>
    obtain ⟨ihT, ihB, ihA, ihL, ihM, ihP⟩ := ih
    refine ⟨?_, ?_, ?_, ?_, ?_, ?_⟩
    · -- parse_termF
      intro toks n rest hv h
      simp only [parse_termF] at h
      cases hck : currentKind toks with
      | none => rw [hck] at h; exact ihA toks n rest hv h
      | some k =>
        rw [hck] at h
        cases k with
        | lambda => exact ihB toks n rest hv h
        | leftParen => exact ihA toks n rest hv h
        | rightParen => exact ihA toks n rest hv h
        | dot => exact ihA toks n rest hv h
        | lowercaseId => exact ihA toks n rest hv h
        | unknown => exact ihA toks n rest hv h
    · -- parse_abstractionF
      intro toks n rest hv h
      simp only [parse_abstractionF] at h
      cases toks with
      | nil => simp at h
      | cons t0 ts =>
        simp only [List.tail_cons] at h
        cases ts with
        | nil => exact absurd h (by simp)
        | cons t1 rest2 =>
          obtain ⟨k, text⟩ := t1
          cases k with
          | lowercaseId =>
            cases hex : expect .dot rest2 with
            | error e =>
              simp only [hex] at h
              exact absurd h (by simp)
            | ok rest3 =>
              obtain ⟨td, h2, -⟩ := expect_ok hex
              cases hpt : parse_termF f rest3 with
              | none =>
                simp only [hex, hpt] at h
                exact absurd h (by simp)
              | some pr =>
                cases pr with
                | error e =>
                  simp only [hex, hpt] at h
                  exact absurd h (by simp)
                | ok p =>
                  obtain ⟨body, rest4⟩ := p
                  simp only [hex, hpt, Option.some.injEq, Except.ok.injEq,
                    Prod.mk.injEq] at h
                  obtain ⟨h3, -⟩ := h
                  have hptext : validLcidString text = true := by
                    refine hv ⟨.lowercaseId, text⟩ (by simp [h2]) rfl
                  have hv3 : ∀ tk ∈ rest3, tk.kind = .lowercaseId →
                      validLcidString tk.text = true := by
                    intro tk hmt
                    refine hv tk ?_
                    subst h2
                    simp only [List.mem_cons]
                    right; right; right
                    exact hmt
                  have hbw := ihT rest3 body rest4 hv3 hpt
                  rw [← h3]
                  simp [wfNode, hptext, hbw]
          | leftParen => exact absurd h (by simp)
          | rightParen => exact absurd h (by simp)
          | lambda => exact absurd h (by simp)
          | dot => exact absurd h (by simp)
          | unknown => exact absurd h (by simp)
    · -- parse_applicationF
      intro toks n rest hv h
      simp only [parse_applicationF] at h
      cases hpa : parse_atomF f toks with
      | none =>
        simp only [hpa] at h
        exact absurd h (by simp)
      | some pr =>
        cases pr with
        | error e =>
          simp only [hpa] at h
          exact absurd h (by simp)
        | ok p =>
          obtain ⟨lhs0, rest0⟩ := p
          simp only [hpa] at h
          have hwl := ihM toks lhs0 rest0 hv hpa
          have hmem := ((parse_consume f).2.2.2.2.1 toks lhs0 rest0 hpa).2
          exact ihL lhs0 rest0 n rest (fun tk hmt => hv tk (hmem tk hmt)) hwl h
    · -- parse_app_loopF
      intro lhs toks n rest hv hw h
      simp only [parse_app_loopF] at h
      cases hck : currentKind toks with
      | none =>
        rw [hck] at h
        simp only [Option.some.injEq, Except.ok.injEq, Prod.mk.injEq] at h
        obtain ⟨h1, -⟩ := h
        rw [← h1]; exact hw
      | some k =>
        rw [hck] at h
        cases k with
        | lowercaseId =>
          cases hpa : parse_atomF f toks with
          | none =>
            simp only [hpa] at h
            exact absurd h (by simp)
          | some pr =>
            cases pr with
            | error e =>
              simp only [hpa] at h
              exact absurd h (by simp)
            | ok p =>
              obtain ⟨rhs0, rest0⟩ := p
              simp only [hpa] at h
              have hwr := ihM toks rhs0 rest0 hv hpa
              have hmem := ((parse_consume f).2.2.2.2.1 toks rhs0 rest0 hpa).2
              refine ihL (.application lhs rhs0) rest0 n rest
                (fun tk hmt => hv tk (hmem tk hmt)) ?_ h
              simp [wfNode, hw, hwr]
        | leftParen =>
          cases hpa : parse_atomF f toks with
          | none =>
            simp only [hpa] at h
            exact absurd h (by simp)
          | some pr =>
            cases pr with
            | error e =>
              simp only [hpa] at h
              exact absurd h (by simp)
            | ok p =>
              obtain ⟨rhs0, rest0⟩ := p
              simp only [hpa] at h
              have hwr := ihM toks rhs0 rest0 hv hpa
              have hmem := ((parse_consume f).2.2.2.2.1 toks rhs0 rest0 hpa).2
              refine ihL (.application lhs rhs0) rest0 n rest
                (fun tk hmt => hv tk (hmem tk hmt)) ?_ h
              simp [wfNode, hw, hwr]
        | rightParen =>
          simp only [Option.some.injEq, Except.ok.injEq, Prod.mk.injEq] at h
          obtain ⟨h1, -⟩ := h
          rw [← h1]; exact hw
        | lambda =>
          simp only [Option.some.injEq, Except.ok.injEq, Prod.mk.injEq] at h
          obtain ⟨h1, -⟩ := h
          rw [← h1]; exact hw
        | dot =>
          simp only [Option.some.injEq, Except.ok.injEq, Prod.mk.injEq] at h
          obtain ⟨h1, -⟩ := h
          rw [← h1]; exact hw
        | unknown =>
          simp only [Option.some.injEq, Except.ok.injEq, Prod.mk.injEq] at h
          obtain ⟨h1, -⟩ := h
          rw [← h1]; exact hw
    · -- parse_atomF
      intro toks n rest hv h
      simp only [parse_atomF] at h
      cases toks with
      | nil =>
        simp only [currentKind] at h
        exact absurd h (by simp)
      | cons t0 ts =>
        obtain ⟨k, tx⟩ := t0
        simp only [currentKind] at h
        cases k with
        | leftParen => exact ihP (⟨.leftParen, tx⟩ :: ts) n rest hv h
        | lowercaseId =>
          simp only [parse_identifier, Option.some.injEq, Except.ok.injEq,
            Prod.mk.injEq] at h
          obtain ⟨h1, -⟩ := h
          have := hv ⟨.lowercaseId, tx⟩ (by simp) rfl
          rw [← h1]
          simpa [wfNode] using this
        | rightParen => exact absurd h (by simp)
        | lambda => exact absurd h (by simp)
        | dot => exact absurd h (by simp)
        | unknown => exact absurd h (by simp)
    · -- parse_parenthesizedF
      intro toks n rest hv h
      simp only [parse_parenthesizedF] at h
      cases hpt : parse_termF f toks.tail with
      | none =>
        simp only [hpt] at h
        exact absurd h (by simp)
      | some pr =>
        cases pr with
        | error e =>
          simp only [hpt] at h
          exact absurd h (by simp)
        | ok p =>
          obtain ⟨term, rest2⟩ := p
          simp only [hpt] at h
          cases hex : expect .rightParen rest2 with
          | error e =>
            simp only [hex] at h
            exact absurd h (by simp)
          | ok rest3 =>
            simp only [hex, Option.some.injEq, Except.ok.injEq, Prod.mk.injEq] at h
            obtain ⟨h1, -⟩ := h
            have hvt : ∀ tk ∈ toks.tail, tk.kind = .lowercaseId →
                validLcidString tk.text = true := by
              intro tk hmt
              refine hv tk ?_
              cases toks with
              | nil => simp at hmt
              | cons t0 ts => simp only [List.tail_cons] at hmt; simp [hmt]
            have := ihT toks.tail term rest2 hvt hpt
            rw [← h1]; exact this

/-! Assembly: the top-level `parse_term` against the fueled functions. -/

theorem tokenize_render {t : Node} (hwf : wfNode t = true) :
    tokenize (render t) = tokensOf t := by
  have h := tokenizeList_render t [] hwf rfl
  rw [List.append_nil] at h
  have h2 : tokenizeList ([] : List Char) = [] := rfl
  rw [h2] at h
  simpa [tokenize] using h

theorem parse_term_eq_of_termF {s : String} {r : PResult}
    (h : ∃ f, parse_termF f (tokenize s) = some r) :
    parse_term s = r.map Prod.fst := by
  obtain ⟨f0, h0⟩ := h
  have hS := (parse_fuel (4 * (tokenize s).length + 4)).1 (tokenize s) (Nat.le_refl _)
  cases hv : parse_termF (4 * (tokenize s).length + 4) (tokenize s) with
  | none => exact absurd hv hS
  | some r' =>
    have h0' := parse_termF_mono (le_max_left f0 (4 * (tokenize s).length + 4)) h0
    have hv' := parse_termF_mono (le_max_right f0 (4 * (tokenize s).length + 4)) hv
    rw [h0'] at hv'
    simp only [Option.some.injEq] at hv'
    simp [parse_term, hv, ← hv']

theorem parse_term_ok_elim {s : String} {t : Node} (h : parse_term s = .ok t) :
    ∃ rest, parse_termF (4 * (tokenize s).length + 4) (tokenize s) =
      some (.ok (t, rest)) := by
  have hS := (parse_fuel (4 * (tokenize s).length + 4)).1 (tokenize s) (Nat.le_refl _)
  cases hv : parse_termF (4 * (tokenize s).length + 4) (tokenize s) with
  | none => exact absurd hv hS
  | some r =>
    cases r with
    | error e => simp [parse_term, hv, Except.map] at h
    | ok p =>
      obtain ⟨n, rest⟩ := p
      simp only [parse_term, hv, Option.getD_some, Except.map, Except.ok.injEq] at h
      exact ⟨rest, by rw [h]⟩

theorem parse_term_wf {s : String} {t : Node} (h : parse_term s = .ok t) :
    wfNode t = true := by
  obtain ⟨rest, hv⟩ := parse_term_ok_elim h
  exact (parse_wf _).1 (tokenize s) t rest
    (fun tk hm hk => tokenize_lcid_valid hm hk) hv

/-- Parse-render round trip, on the fragment with no application in a
right-hand position. -/
theorem parse_term_render {t : Node} (hwf : wfNode t = true)
    (hfl : rightFlat t = true) : parse_term (render t) = .ok t := by
  have htok : tokenize (render t) = tokensOf t := tokenize_render hwf
  obtain ⟨f0, h0⟩ := (parse_tokensOf t).2.2.2 hfl [] rfl
  rw [List.append_nil] at h0
  have hx : ∃ f, parse_termF f (tokenize (render t)) = some (.ok (t, [])) :=
    ⟨f0, by rw [htok]; exact h0⟩
  have := parse_term_eq_of_termF hx
  simpa [Except.map] using this

/-! Preservation of the identifier invariant by the evaluator. -/

theorem substitute_wf {v : Node} (hv : wfNode v = true) :
    ∀ n, wfNode n = true → wfNode (substitute v n) = true := by
  intro n
  induction n with
  | identifier name =>
    intro h
    simp only [substitute]
    split
    · exact hv
    · exact h
  | application l r ihl ihr =>
    intro h
    simp only [wfNode, Bool.and_eq_true] at h
    simp only [substitute, wfNode, Bool.and_eq_true]
    exact ⟨ihl h.1, ihr h.2⟩
  | abstraction p b ihb =>
    intro h
    simp only [wfNode, Bool.and_eq_true] at h
    simp only [substitute, wfNode, Bool.and_eq_true]
    exact ⟨h.1, ihb h.2⟩

theorem eval_wf : ∀ t, wfNode t = true → wfNode (eval t) = true := by
  intro t
  induction t with
  | identifier n => intro h; simpa [eval] using h
  | abstraction p b ihb => intro h; simpa [eval] using h
  | application l r ihl ihr =>
    intro h
    simp only [wfNode, Bool.and_eq_true] at h
    have hl := ihl h.1
    have hr := ihr h.2
    simp only [eval]
    cases hev : eval l with
    | abstraction p b =>
      rw [hev] at hl
      simp only [wfNode, Bool.and_eq_true] at hl
      exact substitute_wf hr b hl.2
    | application a b =>
      rw [hev] at hl
      simp only [wfNode, Bool.and_eq_true] at hl ⊢
      exact ⟨hl, hr⟩
    | identifier nm =>
      rw [hev] at hl
      simp only [wfNode] at hl
      simp only [wfNode, Bool.and_eq_true]
      exact ⟨hl, hr⟩

/-! Character facts for uppercase-led input, used by claim C5. -/

theorem upper_not_whitespace {c : Char} (h1 : 'A' ≤ c) (h2 : c ≤ 'Z') :
    isRustWhitespace c = false := by
  have n1 : 65 ≤ c.toNat := h1
  have n2 : c.toNat ≤ 90 := h2
  simp only [isRustWhitespace, Bool.or_eq_false_iff, decide_eq_false_iff_not,
    Bool.and_eq_false_iff, decide_eq_false_iff_not]
  omega

theorem upper_ne_special {c : Char} (h1 : 'A' ≤ c) (h2 : c ≤ 'Z') :
    c ≠ '(' ∧ c ≠ ')' ∧ c ≠ 'λ' ∧ c ≠ '\\' ∧ c ≠ '.' := by
  have n1 : 65 ≤ c.toNat := h1
  have n2 : c.toNat ≤ 90 := h2
  refine ⟨?_, ?_, ?_, ?_, ?_⟩ <;>
    { intro h; subst h; revert n1 n2; decide }

theorem upper_not_lower {c : Char} (h2 : c ≤ 'Z') :
    ('a' ≤ c && c ≤ 'z') = false := by
  have n2 : c.toNat ≤ 90 := h2
  simp only [Bool.and_eq_false_iff, decide_eq_false_iff_not]
  left
  intro hc
  have n1 : 97 ≤ c.toNat := hc
  omega

/-! The claims. -/

/-- C1, counterexample: the round-trip claim fails on the syntactically valid
input `"a (b c)"`: it parses to an application whose right-hand side is an
application, its rendering is `"a b c"` (parentheses lost), and that string
reparses left-associatively to a structurally different term. -/
theorem c1_roundtrip_counterexample :
    parse_term "a (b c)" =
      .ok (.application (.identifier "a")
        (.application (.identifier "b") (.identifier "c"))) ∧
    render (.application (.identifier "a")
      (.application (.identifier "b") (.identifier "c"))) = "a b c" ∧
    parse_term "a b c" =
      .ok (.application (.application (.identifier "a") (.identifier "b"))
        (.identifier "c")) ∧
    Node.application (.application (.identifier "a") (.identifier "b"))
        (.identifier "c") ≠
      .application (.identifier "a")
        (.application (.identifier "b") (.identifier "c")) := by
  refine ⟨by rfl, by rfl, by rfl, by decide⟩

/-- C1, amended: for every well-formed term in which no application node has
an application as its right-hand side, rendering and reparsing returns a
structurally equal term.  (Terms outside this fragment are produced by the
parser, e.g. from `"a (b c)"`, and break the round trip.) -/
theorem c1_roundtrip_amended (t : Node) (hwf : wfNode t = true)
    (hfl : rightFlat t = true) : parse_term (render t) = .ok t :=
  parse_term_render hwf hfl

/-- Witness for C1's amended theorem at a concrete term. -/
theorem c1_roundtrip_amended_witness :
    parse_term (render (.abstraction "x"
      (.application (.identifier "x") (.identifier "y")))) =
      .ok (.abstraction "x" (.application (.identifier "x") (.identifier "y"))) :=
  c1_roundtrip_amended _ (by decide) (by decide)

/-- C2: beta reduction is not keyed on the abstraction's actual parameter.
Evaluating `(λy. y) z` should substitute `z` for `y` and produce `z`, but the
code replaces only identifiers literally named `"x"`, so it returns the body
`y` unchanged. -/
theorem c2_substitution_ignores_param :
    eval (.application (.abstraction "y" (.identifier "y")) (.identifier "z")) =
      .identifier "y" ∧
    Node.identifier "y" ≠ .identifier "z" := by
  refine ⟨by rfl, by decide⟩

/-- C3: the substitution routine replaces exactly the identifiers literally
named `"x"`, recurses into abstraction bodies without stopping at shadowing
binders (including a binder itself named `"x"`), copies every abstraction's
parameter unchanged, and replaces only identifier leaves. -/
theorem c3_substitute_fixed_name :
    (∀ value name, substitute value (.identifier name) =
      if name = "x" then value else .identifier name) ∧
    (∀ value l r, substitute value (.application l r) =
      .application (substitute value l) (substitute value r)) ∧
    (∀ value p b, substitute value (.abstraction p b) =
      .abstraction p (substitute value b)) ∧
    (∀ value b, substitute value (.abstraction "x" b) =
      .abstraction "x" (substitute value b)) :=
  ⟨fun _ _ => rfl, fun _ _ _ => rfl, fun _ _ _ => rfl, fun _ _ => rfl⟩

/-- C4, counterexample: `eval` is not the identity on every application whose
evaluated head is not an abstraction.  For `((λx. x) a) c` the evaluated head
is the identifier `a` (not an abstraction), yet the result
`a c` differs structurally from the input. -/
theorem c4_eval_not_identity_counterexample :
    Node.isAbstraction (eval (.application (.abstraction "x" (.identifier "x"))
      (.identifier "a"))) = false ∧
    eval (.application (.application (.abstraction "x" (.identifier "x"))
        (.identifier "a")) (.identifier "c")) ≠
      .application (.application (.abstraction "x" (.identifier "x"))
        (.identifier "a")) (.identifier "c") := by
  refine ⟨by rfl, by decide⟩

/-- C4, amended: `eval` is the identity on identifiers and bare abstractions,
and on an application whose evaluated head is not an abstraction provided
both subterms are themselves fixed points of `eval`. -/
theorem c4_eval_identity_amended :
    (∀ n, eval (.identifier n) = .identifier n) ∧
    (∀ p b, eval (.abstraction p b) = .abstraction p b) ∧
    (∀ l r, Node.isAbstraction (eval l) = false → eval l = l → eval r = r →
      eval (.application l r) = .application l r) := by
  refine ⟨fun _ => rfl, fun _ _ => rfl, ?_⟩
  intro l r hna hl hr
  simp only [eval]
  cases hev : eval l with
  | abstraction p b => rw [hev] at hna; simp [Node.isAbstraction] at hna
  | application a b =>
    show (Node.application a b).application (eval r) = l.application r
    rw [hr, ← hev, hl]
  | identifier nm =>
    show (Node.identifier nm).application (eval r) = l.application r
    rw [hr, ← hev, hl]

/-- Witness for C4's amended theorem at a concrete application. -/
theorem c4_eval_identity_amended_witness :
    eval (.application (.identifier "a") (.identifier "b")) =
      .application (.identifier "a") (.identifier "b") :=
  c4_eval_identity_amended.2.2 (.identifier "a") (.identifier "b")
    (by rfl) (by rfl) (by rfl)

/-- C5, counterexample: after a lowercase first character the lexer's greedy
`read_lcid` consumes uppercase characters too, so `"aBC"` lexes as the single
`LowercaseId` token `"aBC"`, not as `LowercaseId "a"` followed by further
tokens. -/
theorem c5_lexer_truncation_counterexample :
    tokenize "aBC" = [⟨.lowercaseId, "aBC"⟩] ∧ ("aBC" : String) ≠ "a" := by
  refine ⟨by rfl, by decide⟩

/-- C5, amended: an identifier beginning with an uppercase letter never lexes
as a `LowercaseId` standing alone — any uppercase first character yields a
single-character `Unknown` token (so `"Abc"` lexes as `Unknown "A"` then
`LowercaseId "bc"`) — but after a lowercase first character uppercase
characters are absorbed into the same `LowercaseId` token, so `"aBC"` is the
single token `LowercaseId "aBC"`. -/
theorem c5_lexer_uppercase_amended :
    tokenize "Abc" = [⟨.unknown, "A"⟩, ⟨.lowercaseId, "bc"⟩] ∧
    tokenize "aBC" = [⟨.lowercaseId, "aBC"⟩] ∧
    (∀ (c : Char) (rest : List Char), 'A' ≤ c → c ≤ 'Z' →
      next_token (c :: rest) = some (⟨.unknown, String.mk [c]⟩, rest)) := by
  refine ⟨by rfl, by rfl, ?_⟩
  intro c rest h1 h2
  obtain ⟨ne1, ne2, ne3, ne4, ne5⟩ := upper_ne_special h1 h2
  simp only [next_token, skip_whitespace_cons_false (upper_not_whitespace h1 h2)]
  rw [if_neg ne1, if_neg ne2, if_neg ne3, if_neg ne4, if_neg ne5,
    if_neg (by simp [upper_not_lower h2])]

/-- Witness for C5's amended theorem at a concrete uppercase character. -/
theorem c5_lexer_uppercase_amended_witness :
    next_token ['A'] = some (⟨.unknown, "A"⟩, []) :=
  c5_lexer_uppercase_amended.2.2 'A' [] (by decide) (by decide)

/-- C6: application parsing is left-associative: for all valid lowercase
identifiers `a b c`, the input `"a b c"` parses to
`Application(Application(a, b), c)`. -/
theorem c6_application_left_assoc (a b c : String)
    (ha : validLcidString a = true) (hb : validLcidString b = true)
    (hc : validLcidString c = true) :
    parse_term (a ++ " " ++ b ++ " " ++ c) =
      .ok (.application (.application (.identifier a) (.identifier b))
        (.identifier c)) := by
  have hwf : wfNode (.application (.application (.identifier a) (.identifier b))
      (.identifier c)) = true := by
    simp [wfNode, ha, hb, hc]
  have hfl : rightFlat (.application (.application (.identifier a) (.identifier b))
      (.identifier c)) = true := by
    simp [rightFlat, Node.isApplication]
  have h := parse_term_render hwf hfl
  simpa [render] using h

/-- Witness for C6 at the literal input `"a b c"`. -/
theorem c6_application_left_assoc_witness :
    parse_term ("a" ++ " " ++ "b" ++ " " ++ "c") =
      .ok (.application (.application (.identifier "a") (.identifier "b"))
        (.identifier "c")) :=
  c6_application_left_assoc "a" "b" "c" (by decide) (by decide) (by decide)

/-- C7: the two literal error scenarios, and the error taxonomy: the fueled
parser never exhausts the fuel `parse_term` gives it (so every failure is a
`ParserError`), and every `ParserError` is either Unexpected End Of Input or
an Unexpected Token carrying a kind and literal text.  The lexer returns
`Option` (no error case) and the evaluator is a total function, so neither
can fail. -/
theorem c7_error_taxonomy :
    parse_term ")λx.x)" = .error (.unexpectedToken .rightParen ")") ∧
    parse_term "(λx." = .error .unexpectedEndOfInput ∧
    (∀ s : String, parse_termF (4 * (tokenize s).length + 4) (tokenize s) ≠ none) ∧
    (∀ (s : String) (e : ParserError), parse_term s = .error e →
      e = .unexpectedEndOfInput ∨ ∃ k tx, e = .unexpectedToken k tx) := by
  refine ⟨by rfl, by rfl, ?_, ?_⟩
  · intro s
    exact (parse_fuel (4 * (tokenize s).length + 4)).1 (tokenize s) (Nat.le_refl _)
  · intro s e _
    cases e with
    | unexpectedToken k tx => exact Or.inr ⟨k, tx, rfl⟩
    | unexpectedEndOfInput => exact Or.inl rfl

/-- Witness for C7's universal parts at a concrete input. -/
theorem c7_error_taxonomy_witness :
    (ParserError.unexpectedEndOfInput = .unexpectedEndOfInput ∨
      ∃ k tx, ParserError.unexpectedEndOfInput = .unexpectedToken k tx) ∧
    parse_termF (4 * (tokenize "(λx.").length + 4) (tokenize "(λx.") ≠ none :=
  ⟨c7_error_taxonomy.2.2.2 "(λx." .unexpectedEndOfInput (by rfl),
   c7_error_taxonomy.2.2.1 "(λx."⟩

/-- C8: every term the parser returns satisfies the well-formed-identifier
invariant (every `Identifier.name` and `Abstraction.param` is a non-empty
string with a lowercase ASCII first character and ASCII alphanumeric rest),
and the invariant is preserved by `substitute` and by `eval`. -/
theorem c8_wf_invariant :
    (∀ (s : String) (t : Node), parse_term s = .ok t → wfNode t = true) ∧
    (∀ v n, wfNode v = true → wfNode n = true → wfNode (substitute v n) = true) ∧
    (∀ t, wfNode t = true → wfNode (eval t) = true) :=
  ⟨fun _ _ h => parse_term_wf h,
   fun _ _ hv hn => substitute_wf hv _ hn,
   fun t ht => eval_wf t ht⟩

/-- Witness for C8 at a concrete parse. -/
theorem c8_wf_invariant_witness : wfNode (.identifier "x") = true :=
  c8_wf_invariant.1 "x" (.identifier "x") (by rfl)

/-- C9: `eval` is total by structural recursion and performs no re-evaluation
pass: on `(λx. x x)(λx. x x)` the single substitution step returns the same
term (a new redex) without looping, and in general a successful beta step
returns `substitute (eval rhs) body` as is. -/
theorem c9_eval_total_one_pass :
    eval (.application
        (.abstraction "x" (.application (.identifier "x") (.identifier "x")))
        (.abstraction "x" (.application (.identifier "x") (.identifier "x")))) =
      .application
        (.abstraction "x" (.application (.identifier "x") (.identifier "x")))
        (.abstraction "x" (.application (.identifier "x") (.identifier "x"))) ∧
    (∀ l r p b, eval l = .abstraction p b →
      eval (.application l r) = substitute (eval r) b) := by
  refine ⟨by rfl, ?_⟩
  intro l r p b h
  simp [eval, h]

/-- Witness for C9's beta-step equation on the omega redex. -/
theorem c9_eval_total_one_pass_witness :
    eval (.application
        (.abstraction "x" (.application (.identifier "x") (.identifier "x")))
        (.abstraction "x" (.application (.identifier "x") (.identifier "x")))) =
      substitute
        (eval (.abstraction "x" (.application (.identifier "x") (.identifier "x"))))
        (.application (.identifier "x") (.identifier "x")) :=
  c9_eval_total_one_pass.2
    (.abstraction "x" (.application (.identifier "x") (.identifier "x")))
    (.abstraction "x" (.application (.identifier "x") (.identifier "x")))
    "x" (.application (.identifier "x") (.identifier "x")) (by rfl)

/-- C10: when the evaluated head of an application is not an abstraction,
`eval` rebuilds the application from the recursively evaluated subterms, so
redexes inside either subterm are still reduced. -/
theorem c10_eval_reduces_subterms (l r : Node)
    (h : Node.isAbstraction (eval l) = false) :
    eval (.application l r) = .application (eval l) (eval r) := by
  simp only [eval]
  cases hev : eval l with
  | abstraction p b => rw [hev] at h; simp [Node.isAbstraction] at h
  | application a b => rfl
  | identifier nm => rfl

/-- Witness for C10: the argument's inner redex is reduced even though the
application itself has no top-level redex. -/
theorem c10_eval_reduces_subterms_witness :
    eval (.application (.identifier "a")
        (.application (.abstraction "x" (.identifier "x")) (.identifier "b"))) =
      .application (.identifier "a") (.identifier "b") :=
  c10_eval_reduces_subterms (.identifier "a")
    (.application (.abstraction "x" (.identifier "x")) (.identifier "b")) (by rfl)

end Camel
